import Mathlib

set_option maxRecDepth 16000

/-!
# Formal model of the streamlit chatbot's mixed Markdown/LaTeX renderer

This file embeds, at the level of character lists, the text pipeline of
`render_markdown_with_latex` from `app.py`, together with the pure content
of `perform_search` and of the chat-turn handler.  Each Python regex of the
renderer is modelled by a dedicated scanner that reproduces the regex's
exact matching discipline (leftmost match, lazy or greedy quantifiers,
lookarounds), and the emission loop is modelled by alternating walks over
the split results.  Recursions that restart after a match are written with
an explicit fuel argument equal to the input length; a fuel of zero returns
the input unchanged, so the splitting functions are total and the
concatenation (losslessness) lemmas hold for every fuel.
-/

/-- Rendered output segment of the mixed Markdown/LaTeX renderer:
plain markdown text, inline math, or display (block) math. -/
inductive Seg where
  | Plain : String → Seg
  | MathInline : String → Seg
  | MathBlock : String → Seg
  deriving DecidableEq, Repr

/-- ASCII whitespace as recognised by Python's `str.strip` and `\s`. -/
def isPyWS (c : Char) : Bool :=
  decide (c = ' ') || decide (c = '\t') || decide (c = '\n') ||
  decide (c = '\r') || decide (c = '\x0b') || decide (c = '\x0c')

/-- Python's `str.strip()`: drop whitespace from both ends. -/
def pstrip (l : List Char) : List Char :=
  ((l.dropWhile isPyWS).reverse.dropWhile isPyWS).reverse

/-- Find the earliest occurrence of the two-character sequence `a b` in `l`;
return the text before it and the text after it.  This is the lazy search
performed by the regexes `\\\[([\s\S]*?)\\\]`, `\\\((...)\\\)` and
`\$\$(.*?)\$\$` once positioned at their opening delimiter. -/
def splitAtPair (a b : Char) : List Char → Option (List Char × List Char)
  | [] => none
  | x :: rest =>
    match rest with
    | [] => none
    | y :: rest2 =>
      if x = a ∧ y = b then some ([], rest2)
      else
        match splitAtPair a b rest with
        | some (p, r) => some (x :: p, r)
        | none => none

/-- One pass of `re.sub` for a TeX delimiter pair: `oc`/`cc` are the
bracket characters (`[`/`]` or `(`/`)`), `d` the replacement delimiter
(`$$` or `$`).  Models lines 105-106 of `app.py`:
`re.sub(r"\\\[([\s\S]*?)\\\]", lambda m: f"$${m.group(1).strip()}$$", content)`
and its `\(`/`\)` sibling.  Scanning is leftmost; replaced text is not
rescanned; on a failed match the scan advances one character. -/
def subTexF (oc cc : Char) (d : List Char) : Nat → List Char → List Char
  | _, [] => []
  | 0, l => l
  | _ + 1, [c] => [c]
  | f + 1, c :: c2 :: rest2 =>
    if c = '\\' ∧ c2 = oc then
      match splitAtPair '\\' cc rest2 with
      | some (inner, rest3) => d ++ pstrip inner ++ d ++ subTexF oc cc d f rest3
      | none => c :: subTexF oc cc d f (c2 :: rest2)
    else c :: subTexF oc cc d f (c2 :: rest2)

/-- The `$$` delimiter. -/
def dd : List Char := ['$', '$']

/-- The `$` delimiter. -/
def sd : List Char := ['$']

/-- Step 1 of the pipeline: `\[ ... \]` becomes `$$ stripped-inner $$`. -/
def sub1 (l : List Char) : List Char := subTexF '[' ']' dd l.length l

/-- Step 2 of the pipeline: `\( ... \)` becomes `$ stripped-inner $`. -/
def sub2 (l : List Char) : List Char := subTexF '(' ')' sd l.length l

/-- The fixed vocabulary of LaTeX command fragments from `replace_square`
in `app.py` (list `indicators`, lines 113-119, kept verbatim including the
duplicated `cdot`). -/
def vocabList : List String :=
  ["\\", "frac", "cdot", "text", "sqrt", "sum", "int", "alpha", "beta", "gamma", "delta",
   "theta", "pi", "sigma", "mu", "lambda", "omega", "sin", "cos", "tan", "log", "exp",
   "partial", "nabla", "leq", "geq", "neq", "approx", "equiv", "rightarrow", "leftarrow",
   "infty", "forall", "exists", "cup", "cap", "setminus", "subset", "subseteq", "superset",
   "wedge", "vee", "oplus", "otimes", "pm", "cdot", "times", "div", "prod", "lim", "det",
   "ker", "dim", "Re", "Im"]

/-- Does `p` occur at the head of the second list? -/
def headSub : List Char → List Char → Bool
  | [], _ => true
  | _ :: _, [] => false
  | a :: as, b :: bs => decide (a = b) && headSub as bs

/-- Python's `needle in hay` substring test. -/
def hasSub (needle : List Char) : List Char → Bool
  | [] => headSub needle []
  | c :: rest => headSub needle (c :: rest) || hasSub needle rest

/-- `any(cmd in inner for cmd in indicators)`: substring containment test
against the fixed vocabulary. -/
def vocabHit (inner : List Char) : Bool :=
  vocabList.any fun v => hasSub v.data inner

/-- The body of `replace_square` (lines 111-120 of `app.py`): given the raw
group `inner` of a match `[inner]`, return `$$ stripped $$` if the stripped
inner text contains a vocabulary fragment, otherwise the match unchanged. -/
def replace_square (inner : List Char) : List Char :=
  if vocabHit (pstrip inner) then '$' :: '$' :: pstrip inner ++ ['$', '$']
  else '[' :: inner ++ [']']

/-- Does the list start with `(`?  Used for the `(?!\()` lookahead. -/
def headIsParen : List Char → Bool
  | c :: _ => decide (c = '(')
  | [] => false

/-- Does the list start with `$`?  Used for the `(?!\$)` lookahead. -/
def headIsDollar : List Char → Bool
  | c :: _ => decide (c = '$')
  | [] => false

/-- Lazy search for the closing `]` of `\[([\s\S]+?)\](?!\()`: the earliest
`]` that is not immediately followed by `(`.  Returns the consumed inner
text and the remainder after the `]`. -/
def findSquareClose : List Char → Option (List Char × List Char)
  | [] => none
  | c :: rest =>
    if decide (c = ']') && !(headIsParen rest) then some ([], rest)
    else
      match findSquareClose rest with
      | some (p, r) => some (c :: p, r)
      | none => none

/-- `re.sub(r"\[([\s\S]+?)\](?!\()", replace_square, text)` (line 122 of
`app.py`).  The inner group needs at least one character, so the close is
searched strictly after the first inner character. -/
def subSquareF : Nat → List Char → List Char
  | _, [] => []
  | 0, l => l
  | _ + 1, [c] => [c]
  | f + 1, c :: c2 :: rest2 =>
    if c = '[' then
      match findSquareClose rest2 with
      | some (pre, post) => replace_square (c2 :: pre) ++ subSquareF f post
      | none => c :: subSquareF f (c2 :: rest2)
    else c :: subSquareF f (c2 :: rest2)

/-- Wrapper for the square-bracket substitution with sufficient fuel. -/
def subSquare (l : List Char) : List Char := subSquareF l.length l

/-- ASCII letter, for the regex class `[A-Za-z]`. -/
def isAsciiLetter (c : Char) : Bool :=
  (decide ('A' ≤ c) && decide (c ≤ 'Z')) || (decide ('a' ≤ c) && decide (c ≤ 'z'))

/-- The regex class `[A-Za-z0-9^_{}\\\s]` of the bare-command tail. -/
def isTailChar (c : Char) : Bool :=
  isAsciiLetter c || (decide ('0' ≤ c) && decide (c ≤ '9')) ||
  decide (c = '^') || decide (c = '_') || decide (c = '\x7b') || decide (c = '\x7d') ||
  decide (c = '\\') || isPyWS c

/-- The punctuation alternative `[.,;:!?)]` of the bare-command lookahead. -/
def isStopPunct (c : Char) : Bool :=
  decide (c = '.') || decide (c = ',') || decide (c = ';') || decide (c = ':') ||
  decide (c = '!') || decide (c = '?') || decide (c = ')')

/-- The lookahead `(?=(?:[.,;:!?)]|\s{2,}|$))`: stop punctuation, at least
two whitespace characters, or end of string. -/
def lookaheadOK : List Char → Bool
  | [] => true
  | c :: rest =>
    isStopPunct c ||
    (isPyWS c && (match rest with | d :: _ => isPyWS d | [] => false))

/-- The lazy tail `[A-Za-z0-9^_{}\\\s]*?` followed by the lookahead:
consume the minimal run of tail-class characters after which the lookahead
holds.  Returns the consumed tail and the remainder. -/
def matchCmdTail : List Char → Option (List Char × List Char)
  | [] => some ([], [])
  | c :: rest =>
    if lookaheadOK (c :: rest) then some ([], c :: rest)
    else if isTailChar c then
      match matchCmdTail rest with
      | some (p, r) => some (c :: p, r)
      | none => none
    else none

/-- `re.sub(r"\\[A-Za-z]+[A-Za-z0-9^_{}\\\s]*?(?=(?:[.,;:!?)]|\s{2,}|$))",
lambda m: f"${m.group(0).strip()}$", out)` (line 124 of `app.py`): a bare
backslash command is wrapped, stripped, in `$ ... $`.  When every tail
position fails the lookahead the next positions inside the letter run also
fail (a letter satisfies neither lookahead alternative), so the scan
resumes one character after the backslash, which is what the code below
does. -/
def subCmdF : Nat → List Char → List Char
  | _, [] => []
  | 0, l => l
  | f + 1, c :: rest =>
    if c = '\\' then
      if (rest.takeWhile isAsciiLetter).isEmpty then c :: subCmdF f rest
      else
        match matchCmdTail (rest.dropWhile isAsciiLetter) with
        | some (tail, rest3) =>
          '$' :: pstrip (c :: rest.takeWhile isAsciiLetter ++ tail) ++ '$' :: subCmdF f rest3
        | none => c :: subCmdF f rest
    else c :: subCmdF f rest

/-- Wrapper for the bare-command substitution with sufficient fuel. -/
def subCmd (l : List Char) : List Char := subCmdF l.length l

/-- `transform_outside_math` from `app.py` (lines 109-125): the
square-bracket conversion followed by the bare-command conversion. -/
def transform_outside_math (l : List Char) : List Char := subCmd (subSquare l)

/-- A character admissible inside a single-`$` inline run: the regex class
`[^$\n]`. -/
def runChar (c : Char) : Bool := !(decide (c = '$') || decide (c = '\n'))

/-- Attempt to match `\$\$[\s\S]*?\$\$|\$[^$\n]+\$` at the head of the
input (the split pattern of line 127 of `app.py`).  Returns the whole
matched text and the remainder. -/
def matchMath : List Char → Option (List Char × List Char)
  | [] => none
  | c :: rest =>
    if c = '$' then
      match rest with
      | [] => none
      | c2 :: rest2 =>
        if c2 = '$' then
          match splitAtPair '$' '$' rest2 with
          | some (inner, r) => some ('$' :: '$' :: inner ++ ['$', '$'], r)
          | none => none
        else
          if headIsDollar (rest.dropWhile runChar) && !(rest.takeWhile runChar).isEmpty then
            some ('$' :: rest.takeWhile runChar ++ ['$'], (rest.dropWhile runChar).tail)
          else none
    else none

/-- `re.split(r"(\$\$[\s\S]*?\$\$|\$[^$\n]+\$)", content)`: the resulting
pieces alternate non-math text (even positions) and captured math runs
(odd positions), starting and ending with a possibly empty non-math
piece. -/
def scan3F : Nat → List Char → List (List Char)
  | _, [] => [[]]
  | 0, l => [l]
  | f + 1, c :: rest =>
    match matchMath (c :: rest) with
    | some (m, r) => [] :: m :: scan3F f r
    | none =>
      match scan3F f rest with
      | p :: ps => (c :: p) :: ps
      | [] => [[c]]

/-- Wrapper for the step-3 split with sufficient fuel. -/
def scan3 (l : List Char) : List (List Char) := scan3F l.length l

/-- Python's `seg.startswith(p)`. -/
def startsWithL (p s : List Char) : Bool := decide (s.take p.length = p)

/-- Python's `seg.endswith(p)`. -/
def endsWithL (p s : List Char) : Bool := decide (s.drop (s.length - p.length) = p)

/-- The pass-through test of line 128 of `app.py`:
`(seg.startswith("$$") and seg.endswith("$$")) or (seg.startswith("$") and seg.endswith("$"))`. -/
def passThru (s : List Char) : Bool :=
  (startsWithL dd s && endsWithL dd s) || (startsWithL sd s && endsWithL sd s)

/-- Concatenation of a list of character lists. -/
def joinL (ls : List (List Char)) : List Char := ls.foldr (fun a b => a ++ b) []

/-- Line 128 of `app.py`: rejoin the step-3 pieces, passing math runs
through unchanged and transforming the others. -/
def step3 (l : List Char) : List Char :=
  joinL ((scan3 l).map fun p => if passThru p then p else transform_outside_math p)

/-- Attempt to match the block pattern `\$\$(.*?)\$\$` (DOTALL) at the head
of the input; return the captured inner text and the remainder. -/
def matchBlockAt : List Char → Option (List Char × List Char)
  | c :: c2 :: rest => if c = '$' ∧ c2 = '$' then splitAtPair '$' '$' rest else none
  | _ => none

/-- `re.split(block_math_pattern, content, flags=re.DOTALL)` (line 132):
even pieces are non-math, odd pieces are the captured block expressions. -/
def scanBlockF : Nat → List Char → List (List Char)
  | _, [] => [[]]
  | 0, l => [l]
  | f + 1, c :: rest =>
    match matchBlockAt (c :: rest) with
    | some (inner, r) => [] :: inner :: scanBlockF f r
    | none =>
      match scanBlockF f rest with
      | p :: ps => (c :: p) :: ps
      | [] => [[c]]

/-- Wrapper for the block-math split with sufficient fuel. -/
def scanBlock (l : List Char) : List (List Char) := scanBlockF l.length l

/-- Lazy search for the closing `$` of the inline pattern
`(?<!\$)\$(?!\$)(.*?)(?<!\$)\$(?!\$)` once the opening `$` is consumed:
`prev` is the character just before the current position.  The inner `.`
does not match a newline; a `$` that fails a lookaround is consumed into
the inner text. -/
def findInlineClose : Char → List Char → Option (List Char × List Char)
  | _, [] => none
  | prev, c :: rest =>
    if decide (c = '\n') then none
    else if decide (c = '$') && !(decide (prev = '$')) && !(headIsDollar rest) then
      some ([], rest)
    else
      match findInlineClose c rest with
      | some (p, r) => some (c :: p, r)
      | none => none

/-- Attempt to match the inline pattern at the head of the input, where
`prev` is the character before the head (`none` at the start of the
string).  Returns the captured inner expression and the remainder. -/
def matchInlineAt (prev : Option Char) : List Char → Option (List Char × List Char)
  | c :: rest =>
    if decide (c = '$') && !(decide (prev = some '$')) && !(headIsDollar rest) then
      findInlineClose '$' rest
    else none
  | [] => none

/-- `re.split(inline_math_pattern, part)` (line 138): even pieces are
plain text, odd pieces are the captured inline expressions. -/
def scanInlineF : Nat → Option Char → List Char → List (List Char)
  | _, _, [] => [[]]
  | 0, _, l => [l]
  | f + 1, prev, c :: rest =>
    match matchInlineAt prev (c :: rest) with
    | some (inner, r) => [] :: inner :: scanInlineF f (some '$') r
    | none =>
      match scanInlineF f (some c) rest with
      | p :: ps => (c :: p) :: ps
      | [] => [[c]]

/-- Wrapper for the inline-math split with sufficient fuel, starting at the
beginning of a part (no previous character). -/
def scanInline (l : List Char) : List (List Char) := scanInlineF l.length none l

/-- The inner emission loop (lines 140-151 of `app.py`): even pieces are
rendered as markdown only when non-blank after stripping, odd pieces are
inline math.  The boolean is the parity (`true` inside an odd piece). -/
def goI : Bool → List (List Char) → List Seg
  | _, [] => []
  | false, p :: ps => (if pstrip p = [] then [] else [Seg.Plain (String.mk p)]) ++ goI true ps
  | true, p :: ps => Seg.MathInline (String.mk p) :: goI false ps

/-- The outer emission loop (lines 134-158 of `app.py`): even pieces go
through the inline split, odd pieces are block math. -/
def goB : Bool → List (List Char) → List Seg
  | _, [] => []
  | false, p :: ps => goI false (scanInline p) ++ goB true ps
  | true, p :: ps => Seg.MathBlock (String.mk p) :: goB false ps

/-- The full renderer `render_markdown_with_latex` (lines 99-158 of
`app.py`), as the sequence of segments it hands to `st.markdown` and
`st.latex`, in emission order. -/
def render_markdown_with_latex (content : List Char) : List Seg :=
  goB false (scanBlock (step3 (sub2 (sub1 content))))

/-- String-level entry point of the renderer. -/
def render (s : String) : List Seg := render_markdown_with_latex s.data

/-- The textual payload of a segment with its math delimiters re-added. -/
def rejoinSeg : Seg → List Char
  | .Plain t => t.data
  | .MathInline e => '$' :: e.data ++ ['$']
  | .MathBlock e => '$' :: '$' :: e.data ++ ['$', '$']

/-- Concatenate the payloads of a segment sequence, re-inserting the
`$`/`$$` markers stripped from math segments. -/
def rejoinL (segs : List Seg) : List Char := joinL (segs.map rejoinSeg)

/-- String-level rejoin. -/
def rejoinS (segs : List Seg) : String := String.mk (rejoinL segs)

/-!
## The search collaborator and the chat turn handler

`perform_search` (lines 48-97 of `app.py`) and the top-level chat turn
(lines 275-354) perform I/O; their pure content is modelled by making the
environment explicit: the API key, the outcome of the HTTP search call and
the outcome of the streaming completion call are inputs.
-/

/-- One item of the search API's JSON `results` array; `none` models an
absent key, `some ""` a present but empty value. -/
structure RawResult where
  title : Option String
  url : Option String
  text : Option String
  summary : Option String
  published_date : Option String
  deriving DecidableEq, Repr

/-- A search result as assembled by `perform_search`. -/
structure SearchResult where
  title : String
  url : String
  summary : String
  published_date : String
  deriving DecidableEq, Repr

/-- Outcome of the HTTP POST to the search API: an exception during the
request, or a response with a status code and a parsed result list. -/
inductive SearchOutcome where
  | exn : String → SearchOutcome
  | resp : Nat → List RawResult → SearchOutcome
  deriving DecidableEq, Repr

/-- Python truthiness of `result.get(k)` for a string field. -/
def truthyOpt : Option String → Bool
  | none => false
  | some s => !s.isEmpty

/-- The per-result assembly inside `perform_search` (lines 84-90):
defaults for missing keys and the 300-character summary truncation. -/
def convertResult (r : RawResult) : SearchResult :=
  { title := r.title.getD "Untitled"
  , url := r.url.getD ""
  , summary :=
      if truthyOpt r.text || truthyOpt r.summary then
        (match r.text with
         | some t => t.take 300
         | none => (r.summary.getD "").take 300)
      else ""
  , published_date := r.published_date.getD "" }

/-- `perform_search` (lines 48-97 of `app.py`): empty list when the key is
missing or falsy, when the request raises, or when the status is not 200;
otherwise the converted results. -/
def perform_search (apiKey : Option String) (outcome : SearchOutcome) : List SearchResult :=
  match apiKey with
  | none => []
  | some k =>
    if k = "" then []
    else
      match outcome with
      | .exn _ => []
      | .resp status results => if status = 200 then results.map convertResult else []

/-- A chat-history message: role, content and the optional source list
(empty when the `sources` key is absent). -/
structure ChatMessage where
  role : String
  content : String
  sources : List SearchResult
  deriving DecidableEq, Repr

/-- Outcome of the streaming completion call: the list of streamed deltas
(`none` for a chunk whose delta is null), or an exception message. -/
inductive StreamOutcome where
  | ok : List (Option String) → StreamOutcome
  | err : String → StreamOutcome
  deriving DecidableEq, Repr

/-- The `full_response` accumulated by the streaming loop, or the error
text built by the `except` handler (lines 330-348 of `app.py`). -/
def streamText : StreamOutcome → String
  | .ok chunks => chunks.foldl (fun acc c => match c with | some t => acc ++ t | none => acc) ""
  | .err msg => "❌ Error: " ++ msg

/-- The `search_context` block appended to the outbound user content when
search is enabled and returned sources (lines 295-299 of `app.py`). -/
def searchContextBlock (sources : List SearchResult) : String :=
  "\n\nSearch Results:\n" ++
    String.intercalate "\n\n"
      (sources.enum.map fun p =>
        toString (p.1 + 1) ++ ". " ++ p.2.title ++ " (" ++ p.2.url ++ ")\n   " ++ p.2.summary)

/-- Everything one chat turn produces (lines 275-354 of `app.py`): what is
displayed, what is sent to the completion API, and the new history. -/
structure TurnResult where
  displayedUser : String
  userMessage : ChatMessage
  apiUserContent : String
  messagesForApi : List (String × String)
  displayedAssistant : String
  assistantMessage : ChatMessage
  newMessages : List ChatMessage
  deriving DecidableEq, Repr

/-- The chat turn handler.  `searchSources` is what `perform_search`
returned (computed only when search is enabled; the handler otherwise
receives the initial `[]`). -/
def chatTurn (prompt : String) (searchEnabled : Bool) (searchSources : List SearchResult)
    (prior : List ChatMessage) (stream : StreamOutcome) : TurnResult :=
  let messagesForApi0 := prior.map fun m => (m.role, m.content)
  let userMessage : ChatMessage := { role := "user", content := prompt, sources := [] }
  let apiUserContent :=
    if searchEnabled ∧ searchSources ≠ [] then prompt ++ searchContextBlock searchSources
    else prompt
  let fullResponse := streamText stream
  let assistantMessage : ChatMessage :=
    { role := "assistant", content := fullResponse
    , sources := if searchSources ≠ [] then searchSources else [] }
  { displayedUser := prompt
  , userMessage := userMessage
  , apiUserContent := apiUserContent
  , messagesForApi := messagesForApi0 ++ [("user", apiUserContent)]
  , displayedAssistant :=
      match stream with
      | .ok _ => fullResponse
      | .err msg => "❌ Error: " ++ msg
  , assistantMessage := assistantMessage
  , newMessages := (prior ++ [userMessage]) ++ [assistantMessage] }

/-!
## Derived notions used by the verification

`glueB`/`glueI` undo the block/inline splits by re-inserting the `$$`/`$`
delimiters around odd-indexed pieces; `goodInline`/`goodBlock` say that no
non-empty whitespace-only plain piece occurs (such pieces are the ones the
emission loop drops); `keepCh` keeps the characters that are neither
whitespace nor delimiter material.
-/

/-- Undo the inline split: odd pieces get their `$` delimiters back. -/
def glueI : Bool → List (List Char) → List Char
  | _, [] => []
  | false, p :: ps => p ++ glueI true ps
  | true, p :: ps => '$' :: p ++ '$' :: glueI false ps

/-- Undo the block split: odd pieces get their `$$` delimiters back. -/
def glueB : Bool → List (List Char) → List Char
  | _, [] => []
  | false, p :: ps => p ++ glueB true ps
  | true, p :: ps => '$' :: '$' :: p ++ '$' :: '$' :: glueB false ps

/-- Every even (plain) piece is empty or non-blank after stripping. -/
def goodInline : Bool → List (List Char) → Bool
  | _, [] => true
  | false, p :: ps => (p.isEmpty || !(pstrip p).isEmpty) && goodInline true ps
  | true, _ :: ps => goodInline false ps

/-- Every even part of the block split has a good inline split. -/
def goodBlock : Bool → List (List Char) → Bool
  | _, [] => true
  | false, p :: ps => goodInline false (scanInline p) && goodBlock true ps
  | true, _ :: ps => goodBlock false ps

/-- The renderer drops no non-empty whitespace-only plain piece of `l`. -/
def wellSplit (l : List Char) : Bool := goodBlock false (scanBlock l)

/-- Delimiter material: the characters consumed or introduced by the
delimiter-normalisation steps. -/
def delimCh (c : Char) : Bool :=
  decide (c = '$') || decide (c = '\\') || decide (c = '[') || decide (c = ']') ||
  decide (c = '(') || decide (c = ')')

/-- A visible, non-delimiter character. -/
def keepCh (c : Char) : Bool := !(isPyWS c) && !(delimCh c)

/-!
## One-step unfolding equations

`simp only` with a recursive definition unfolds its recursive calls as
well; the proofs below instead rewrite with these single-step equations.
-/

theorem splitAtPair_cons (a b x y : Char) (rest2 : List Char) :
    splitAtPair a b (x :: y :: rest2) =
      if x = a ∧ y = b then some ([], rest2)
      else
        match splitAtPair a b (y :: rest2) with
        | some (p, r) => some (x :: p, r)
        | none => none := rfl

theorem findSquareClose_cons (c : Char) (rest : List Char) :
    findSquareClose (c :: rest) =
      if decide (c = ']') && !(headIsParen rest) then some ([], rest)
      else
        match findSquareClose rest with
        | some (p, r) => some (c :: p, r)
        | none => none := rfl

theorem findInlineClose_cons (prev c : Char) (rest : List Char) :
    findInlineClose prev (c :: rest) =
      if decide (c = '\n') then none
      else if decide (c = '$') && !(decide (prev = '$')) && !(headIsDollar rest) then
        some ([], rest)
      else
        match findInlineClose c rest with
        | some (p, r) => some (c :: p, r)
        | none => none := rfl

theorem matchCmdTail_cons (c : Char) (rest : List Char) :
    matchCmdTail (c :: rest) =
      if lookaheadOK (c :: rest) then some ([], c :: rest)
      else if isTailChar c then
        match matchCmdTail rest with
        | some (p, r) => some (c :: p, r)
        | none => none
      else none := rfl

theorem subTexF_single (oc cc : Char) (d : List Char) (f : Nat) (c : Char) :
    subTexF oc cc d (f + 1) [c] = [c] := rfl

theorem subTexF_cons2 (oc cc : Char) (d : List Char) (f : Nat) (c c2 : Char)
    (rest2 : List Char) :
    subTexF oc cc d (f + 1) (c :: c2 :: rest2) =
      (if c = '\\' ∧ c2 = oc then
        match splitAtPair '\\' cc rest2 with
        | some (inner, rest3) => d ++ pstrip inner ++ d ++ subTexF oc cc d f rest3
        | none => c :: subTexF oc cc d f (c2 :: rest2)
      else c :: subTexF oc cc d f (c2 :: rest2)) := rfl

theorem subSquareF_single (f : Nat) (c : Char) : subSquareF (f + 1) [c] = [c] := rfl

theorem subSquareF_cons2 (f : Nat) (c c2 : Char) (rest2 : List Char) :
    subSquareF (f + 1) (c :: c2 :: rest2) =
      (if c = '[' then
        match findSquareClose rest2 with
        | some (pre, post) => replace_square (c2 :: pre) ++ subSquareF f post
        | none => c :: subSquareF f (c2 :: rest2)
      else c :: subSquareF f (c2 :: rest2)) := rfl

theorem subCmdF_cons (f : Nat) (c : Char) (rest : List Char) :
    subCmdF (f + 1) (c :: rest) =
      (if c = '\\' then
        if (rest.takeWhile isAsciiLetter).isEmpty then c :: subCmdF f rest
        else
          match matchCmdTail (rest.dropWhile isAsciiLetter) with
          | some (tail, rest3) =>
            '$' :: pstrip (c :: rest.takeWhile isAsciiLetter ++ tail) ++ '$' :: subCmdF f rest3
          | none => c :: subCmdF f rest
      else c :: subCmdF f rest) := rfl

theorem scan3F_cons (f : Nat) (c : Char) (rest : List Char) :
    scan3F (f + 1) (c :: rest) =
      (match matchMath (c :: rest) with
      | some (m, r) => [] :: m :: scan3F f r
      | none =>
        match scan3F f rest with
        | p :: ps => (c :: p) :: ps
        | [] => [[c]]) := rfl

theorem scanBlockF_cons (f : Nat) (c : Char) (rest : List Char) :
    scanBlockF (f + 1) (c :: rest) =
      (match matchBlockAt (c :: rest) with
      | some (inner, r) => [] :: inner :: scanBlockF f r
      | none =>
        match scanBlockF f rest with
        | p :: ps => (c :: p) :: ps
        | [] => [[c]]) := rfl

theorem scanInlineF_cons (f : Nat) (prev : Option Char) (c : Char) (rest : List Char) :
    scanInlineF (f + 1) prev (c :: rest) =
      (match matchInlineAt prev (c :: rest) with
      | some (inner, r) => [] :: inner :: scanInlineF f (some '$') r
      | none =>
        match scanInlineF f (some c) rest with
        | p :: ps => (c :: p) :: ps
        | [] => [[c]]) := rfl

/-!
## Decomposition lemmas: each matcher returns a decomposition of its input
-/

theorem splitAtPair_eq (a b : Char) :
    ∀ l p r, splitAtPair a b l = some (p, r) → l = p ++ a :: b :: r := by
  intro l
  induction l with
  | nil => intro p r h; simp [splitAtPair] at h
  | cons x rest ih =>
    intro p r h
    cases rest with
    | nil => simp [splitAtPair] at h
    | cons y rest2 =>
      rw [splitAtPair_cons] at h
      by_cases hxy : x = a ∧ y = b
      · rw [if_pos hxy] at h
        simp only [Option.some.injEq, Prod.mk.injEq] at h
        obtain ⟨rfl, rfl⟩ := h
        simp [hxy.1, hxy.2]
      · rw [if_neg hxy] at h
        cases hsp : splitAtPair a b (y :: rest2) with
        | none => rw [hsp] at h; cases h
        | some pr =>
          obtain ⟨p2, r2⟩ := pr
          rw [hsp] at h
          simp only [Option.some.injEq, Prod.mk.injEq] at h
          obtain ⟨rfl, rfl⟩ := h
          have hd := ih p2 r2 hsp
          simp [hd]

theorem findSquareClose_eq :
    ∀ l p r, findSquareClose l = some (p, r) → l = p ++ ']' :: r := by
  intro l
  induction l with
  | nil => intro p r h; simp [findSquareClose] at h
  | cons c rest ih =>
    intro p r h
    rw [findSquareClose_cons] at h
    by_cases hc : (decide (c = ']') && !headIsParen rest) = true
    · rw [if_pos hc] at h
      simp only [Option.some.injEq, Prod.mk.injEq] at h
      obtain ⟨rfl, rfl⟩ := h
      have : c = ']' := by
        have := (Bool.and_eq_true _ _).mp hc
        exact of_decide_eq_true this.1
      simp [this]
    · rw [if_neg hc] at h
      cases hsp : findSquareClose rest with
      | none => rw [hsp] at h; cases h
      | some pr =>
        obtain ⟨p2, r2⟩ := pr
        rw [hsp] at h
        simp only [Option.some.injEq, Prod.mk.injEq] at h
        obtain ⟨rfl, rfl⟩ := h
        have hd := ih p2 r2 hsp
        simp [hd]

theorem findInlineClose_eq :
    ∀ l prev p r, findInlineClose prev l = some (p, r) → l = p ++ '$' :: r := by
  intro l
  induction l with
  | nil => intro prev p r h; simp [findInlineClose] at h
  | cons c rest ih =>
    intro prev p r h
    rw [findInlineClose_cons] at h
    by_cases hn : decide (c = '\n') = true
    · rw [if_pos hn] at h; cases h
    · rw [if_neg hn] at h
      by_cases hc : (decide (c = '$') && !decide (prev = '$') && !headIsDollar rest) = true
      · rw [if_pos hc] at h
        simp only [Option.some.injEq, Prod.mk.injEq] at h
        obtain ⟨rfl, rfl⟩ := h
        have : c = '$' := by
          have h1 := (Bool.and_eq_true _ _).mp hc
          have h2 := (Bool.and_eq_true _ _).mp h1.1
          exact of_decide_eq_true h2.1
        simp [this]
      · rw [if_neg hc] at h
        cases hsp : findInlineClose c rest with
        | none => rw [hsp] at h; cases h
        | some pr =>
          obtain ⟨p2, r2⟩ := pr
          rw [hsp] at h
          simp only [Option.some.injEq, Prod.mk.injEq] at h
          obtain ⟨rfl, rfl⟩ := h
          have hd := ih c p2 r2 hsp
          simp [hd]

theorem matchCmdTail_eq :
    ∀ l p r, matchCmdTail l = some (p, r) → l = p ++ r := by
  intro l
  induction l with
  | nil =>
    intro p r h
    simp only [matchCmdTail, Option.some.injEq, Prod.mk.injEq] at h
    obtain ⟨rfl, rfl⟩ := h
    rfl
  | cons c rest ih =>
    intro p r h
    rw [matchCmdTail_cons] at h
    by_cases hla : lookaheadOK (c :: rest) = true
    · rw [if_pos hla] at h
      simp only [Option.some.injEq, Prod.mk.injEq] at h
      obtain ⟨rfl, rfl⟩ := h
      rfl
    · rw [if_neg hla] at h
      by_cases htc : isTailChar c = true
      · rw [if_pos htc] at h
        cases hsp : matchCmdTail rest with
        | none => rw [hsp] at h; cases h
        | some pr =>
          obtain ⟨p2, r2⟩ := pr
          rw [hsp] at h
          simp only [Option.some.injEq, Prod.mk.injEq] at h
          obtain ⟨rfl, rfl⟩ := h
          have hd := ih p2 r2 hsp
          simp [hd]
      · rw [if_neg htc] at h; cases h

theorem matchMath_eq :
    ∀ l m r, matchMath l = some (m, r) → l = m ++ r := by
  intro l m r h
  cases l with
  | nil => simp [matchMath] at h
  | cons c rest =>
    cases rest with
    | nil =>
      simp only [matchMath] at h
      by_cases hc : c = '$'
      · rw [if_pos hc] at h; cases h
      · rw [if_neg hc] at h; cases h
    | cons c2 rest2 =>
      simp only [matchMath] at h
      by_cases hc : c = '$'
      case neg => rw [if_neg hc] at h; cases h
      rw [if_pos hc] at h
      by_cases hc2 : c2 = '$'
      · rw [if_pos hc2] at h
        cases hsp : splitAtPair '$' '$' rest2 with
        | none => rw [hsp] at h; cases h
        | some pr =>
          obtain ⟨inner, r2⟩ := pr
          rw [hsp] at h
          simp only [Option.some.injEq, Prod.mk.injEq] at h
          obtain ⟨rfl, rfl⟩ := h
          have hd := splitAtPair_eq '$' '$' rest2 inner r2 hsp
          simp [hc, hc2, hd]
      · rw [if_neg hc2] at h
        by_cases hcl : (headIsDollar ((c2 :: rest2).dropWhile runChar)
            && !((c2 :: rest2).takeWhile runChar).isEmpty) = true
        · rw [if_pos hcl] at h
          simp only [Option.some.injEq, Prod.mk.injEq] at h
          obtain ⟨rfl, rfl⟩ := h
          have hsplit : (c2 :: rest2).takeWhile runChar ++ (c2 :: rest2).dropWhile runChar
              = c2 :: rest2 := List.takeWhile_append_dropWhile _ _
          cases hdw : (c2 :: rest2).dropWhile runChar with
          | nil => rw [hdw] at hcl; simp [headIsDollar] at hcl
          | cons d t =>
            rw [hdw] at hcl
            have hd : d = '$' := by
              have hpair := (Bool.and_eq_true _ _).mp hcl
              simpa [headIsDollar] using hpair.1
            rw [hdw] at hsplit
            subst hd
            simp only [List.tail_cons]
            obtain ⟨tw, htw⟩ : ∃ tw, (c2 :: rest2).takeWhile runChar = tw := ⟨_, rfl⟩
            rw [htw] at hsplit
            rw [htw]
            rw [← hsplit, hc]
            simp
        · rw [if_neg hcl] at h; cases h

theorem matchBlockAt_eq :
    ∀ l inner r, matchBlockAt l = some (inner, r) → l = '$' :: '$' :: inner ++ '$' :: '$' :: r := by
  intro l inner r h
  match l with
  | [] => simp [matchBlockAt] at h
  | [c] => simp [matchBlockAt] at h
  | c :: c2 :: rest =>
    simp only [matchBlockAt] at h
    by_cases hc : c = '$' ∧ c2 = '$'
    · rw [if_pos hc] at h
      have hd := splitAtPair_eq '$' '$' rest inner r h
      simp [hc.1, hc.2, hd]
    · rw [if_neg hc] at h; cases h

theorem matchInlineAt_eq :
    ∀ l prev inner r, matchInlineAt prev l = some (inner, r) → l = '$' :: inner ++ '$' :: r := by
  intro l prev inner r h
  cases l with
  | nil => simp [matchInlineAt] at h
  | cons c rest =>
    simp only [matchInlineAt] at h
    by_cases hc : (decide (c = '$') && !decide (prev = some '$') && !headIsDollar rest) = true
    · rw [if_pos hc] at h
      have hceq : c = '$' := by
        have h1 := (Bool.and_eq_true _ _).mp hc
        have h2 := (Bool.and_eq_true _ _).mp h1.1
        exact of_decide_eq_true h2.1
      have hd := findInlineClose_eq rest '$' inner r h
      simp [hceq, hd]
    · rw [if_neg hc] at h; cases h

/-!
## Split losslessness: concatenating the pieces recovers the input
-/

theorem joinL_nil : joinL [] = [] := rfl

theorem joinL_cons (p : List Char) (ps : List (List Char)) :
    joinL (p :: ps) = p ++ joinL ps := rfl

theorem joinL_scan3F : ∀ f l, joinL (scan3F f l) = l := by
  intro f
  induction f with
  | zero => intro l; cases l <;> simp [scan3F, joinL]
  | succ f ih =>
    intro l
    cases l with
    | nil => simp [scan3F, joinL]
    | cons c rest =>
      rw [scan3F_cons]
      cases hm : matchMath (c :: rest) with
      | some pr =>
        obtain ⟨m, r⟩ := pr
        have hd := matchMath_eq _ _ _ hm
        simp [joinL_cons, ih, hd]
      | none =>
        cases hs : scan3F f rest with
        | nil =>
          have hrest := ih rest
          rw [hs] at hrest
          simp [joinL] at hrest
          simp [joinL, ← hrest]
        | cons p ps =>
          have hrest := ih rest
          rw [hs] at hrest
          rw [joinL_cons] at hrest
          simp [joinL_cons, ← hrest]

theorem glueB_scanBlockF : ∀ f l, glueB false (scanBlockF f l) = l := by
  intro f
  induction f with
  | zero => intro l; cases l <;> simp [scanBlockF, glueB]
  | succ f ih =>
    intro l
    cases l with
    | nil => simp [scanBlockF, glueB]
    | cons c rest =>
      rw [scanBlockF_cons]
      cases hm : matchBlockAt (c :: rest) with
      | some pr =>
        obtain ⟨inner, r⟩ := pr
        have hd := matchBlockAt_eq _ _ _ hm
        simp [glueB, ih, hd]
      | none =>
        cases hs : scanBlockF f rest with
        | nil =>
          have hrest := ih rest
          rw [hs] at hrest
          simp [glueB] at hrest
          simp [glueB, ← hrest]
        | cons p ps =>
          have hrest := ih rest
          rw [hs] at hrest
          simp only [glueB] at hrest
          simp [glueB, ← hrest]

theorem glueI_scanInlineF : ∀ f prev l, glueI false (scanInlineF f prev l) = l := by
  intro f
  induction f with
  | zero => intro prev l; cases l <;> simp [scanInlineF, glueI]
  | succ f ih =>
    intro prev l
    cases l with
    | nil => simp [scanInlineF, glueI]
    | cons c rest =>
      rw [scanInlineF_cons]
      cases hm : matchInlineAt prev (c :: rest) with
      | some pr =>
        obtain ⟨inner, r⟩ := pr
        have hd := matchInlineAt_eq _ _ _ _ hm
        simp [glueI, ih, hd]
      | none =>
        cases hs : scanInlineF f (some c) rest with
        | nil =>
          have hrest := ih (some c) rest
          rw [hs] at hrest
          simp [glueI] at hrest
          simp [glueI, ← hrest]
        | cons p ps =>
          have hrest := ih (some c) rest
          rw [hs] at hrest
          simp only [glueI] at hrest
          simp [glueI, ← hrest]

/-- A character of a piece of a split is a character of the concatenation. -/
theorem mem_joinL {c : Char} :
    ∀ {Ls : List (List Char)} {p : List Char}, p ∈ Ls → c ∈ p → c ∈ joinL Ls := by
  intro Ls
  induction Ls with
  | nil => intro p h; cases h
  | cons q qs ih =>
    intro p hp hc
    rw [joinL_cons]
    rw [List.mem_append]
    rcases List.mem_cons.mp hp with rfl | hmem
    · exact Or.inl hc
    · exact Or.inr (ih hmem hc)

theorem filter_joinL (q : Char → Bool) :
    ∀ Ls : List (List Char), (joinL Ls).filter q = joinL (Ls.map (List.filter q)) := by
  intro Ls
  induction Ls with
  | nil => rfl
  | cons p ps ih => simp [joinL_cons, List.filter_append, ih]

/-!
## Identity lemmas: a substitution pass without its trigger character
-/

theorem subTexF_id (oc cc : Char) (d : List Char) :
    ∀ f l, '\\' ∉ l → subTexF oc cc d f l = l := by
  intro f
  induction f with
  | zero => intro l _; cases l <;> rfl
  | succ f ih =>
    intro l hl
    match l with
    | [] => rfl
    | [c] => rw [subTexF_single]
    | c :: c2 :: rest2 =>
      have hc : ¬(c = '\\' ∧ c2 = oc) := fun h => hl (h.1 ▸ List.mem_cons_self _ _)
      rw [subTexF_cons2, if_neg hc, ih _ fun h => hl (List.mem_cons_of_mem _ h)]

theorem subSquareF_id :
    ∀ f l, '[' ∉ l → subSquareF f l = l := by
  intro f
  induction f with
  | zero => intro l _; cases l <;> rfl
  | succ f ih =>
    intro l hl
    match l with
    | [] => rfl
    | [c] => rw [subSquareF_single]
    | c :: c2 :: rest2 =>
      have hc : ¬(c = '[') := fun h => hl (h ▸ List.mem_cons_self _ _)
      rw [subSquareF_cons2, if_neg hc, ih _ fun h => hl (List.mem_cons_of_mem _ h)]

theorem subCmdF_id :
    ∀ f l, '\\' ∉ l → subCmdF f l = l := by
  intro f
  induction f with
  | zero => intro l _; cases l <;> rfl
  | succ f ih =>
    intro l hl
    cases l with
    | nil => rfl
    | cons c rest =>
      have hc : ¬(c = '\\') := fun h => hl (h ▸ List.mem_cons_self _ _)
      rw [subCmdF_cons, if_neg hc, ih rest fun h => hl (List.mem_cons_of_mem _ h)]

/-!
## Stripping and filtering
-/

theorem filter_dropWhileWS (l : List Char) :
    (l.dropWhile isPyWS).filter keepCh = l.filter keepCh := by
  induction l with
  | nil => rfl
  | cons c rest ih =>
    by_cases hw : isPyWS c = true
    · have hk : keepCh c = false := by simp [keepCh, hw]
      simp [List.dropWhile_cons, hw, List.filter_cons, hk, ih]
    · simp [List.dropWhile_cons, hw]

theorem filter_pstrip (l : List Char) : (pstrip l).filter keepCh = l.filter keepCh := by
  simp [pstrip, List.filter_reverse, filter_dropWhileWS]

theorem pstrip_nil_all (p : List Char) (h : pstrip p = []) : ∀ c ∈ p, isPyWS c = true := by
  have h1 : (p.dropWhile isPyWS).reverse.dropWhile isPyWS = [] := by
    have h0 := congrArg List.reverse h
    simpa [pstrip] using h0
  have h2 : ∀ c ∈ (p.dropWhile isPyWS).reverse, isPyWS c = true :=
    List.dropWhile_eq_nil_iff.mp h1
  intro c hc
  have hsplit := List.takeWhile_append_dropWhile isPyWS p
  rw [← hsplit] at hc
  rcases List.mem_append.mp hc with h3 | h3
  · exact List.mem_takeWhile_imp h3
  · exact h2 c (List.mem_reverse.mpr h3)

theorem filter_keep_nil_of_ws (p : List Char) (h : ∀ c ∈ p, isPyWS c = true) :
    p.filter keepCh = [] := by
  induction p with
  | nil => rfl
  | cons c rest ih =>
    have hkc : keepCh c = false := by simp [keepCh, h c (List.mem_cons_self _ _)]
    simp [List.filter_cons, hkc, ih fun x hx => h x (List.mem_cons_of_mem _ hx)]

/-!
## Keep-filter preservation through the three substitution passes
-/

theorem keep_dollar : keepCh '$' = false := by decide

theorem keep_bs : keepCh '\\' = false := by decide

theorem keep_lb : keepCh '[' = false := by decide

theorem keep_rb : keepCh ']' = false := by decide

theorem filter_subTexF (oc cc : Char) (d : List Char)
    (hoc : keepCh oc = false) (hcc : keepCh cc = false) (hd : d.filter keepCh = []) :
    ∀ f l, (subTexF oc cc d f l).filter keepCh = l.filter keepCh := by
  intro f
  induction f with
  | zero => intro l; cases l <;> rfl
  | succ f ih =>
    intro l
    match l with
    | [] => rfl
    | [c] => rw [subTexF_single]
    | c :: c2 :: rest2 =>
      rw [subTexF_cons2]
      by_cases hcc2 : c = '\\' ∧ c2 = oc
      · rw [if_pos hcc2]
        obtain ⟨hc, hc2⟩ := hcc2
        cases hsp : splitAtPair '\\' cc rest2 with
        | some pr =>
          obtain ⟨inner, rest3⟩ := pr
          have hdec := splitAtPair_eq _ _ _ _ _ hsp
          rw [hdec]
          simp [List.filter_append, hd, filter_pstrip, ih, List.filter_cons,
            keep_bs, hc, hc2, hoc, hcc]
        | none => simp [List.filter_cons, ih]
      · rw [if_neg hcc2]
        simp [List.filter_cons, ih]

theorem filter_replace_square (inner : List Char) :
    (replace_square inner).filter keepCh = inner.filter keepCh := by
  unfold replace_square
  by_cases hv : vocabHit (pstrip inner) = true
  · rw [if_pos hv]
    simp [List.filter_append, List.filter_cons, filter_pstrip, keep_dollar]
  · rw [if_neg hv]
    simp [List.filter_append, List.filter_cons, keep_lb, keep_rb]

theorem filter_subSquareF :
    ∀ f l, (subSquareF f l).filter keepCh = l.filter keepCh := by
  intro f
  induction f with
  | zero => intro l; cases l <;> rfl
  | succ f ih =>
    intro l
    match l with
    | [] => rfl
    | [c] => rw [subSquareF_single]
    | c :: c2 :: rest2 =>
      rw [subSquareF_cons2]
      by_cases hc : c = '['
      · rw [if_pos hc]
        cases hfc : findSquareClose rest2 with
        | some pr =>
          obtain ⟨pre, post⟩ := pr
          have hdec := findSquareClose_eq _ _ _ hfc
          rw [hdec]
          simp [List.filter_append, filter_replace_square, ih, List.filter_cons,
            hc, keep_lb, keep_rb]
          split <;> simp
        | none => simp [List.filter_cons, ih]
      · rw [if_neg hc]
        simp [List.filter_cons, ih]

theorem filter_subCmdF :
    ∀ f l, (subCmdF f l).filter keepCh = l.filter keepCh := by
  intro f
  induction f with
  | zero => intro l; cases l <;> rfl
  | succ f ih =>
    intro l
    cases l with
    | nil => rfl
    | cons c rest =>
      rw [subCmdF_cons]
      by_cases hc : c = '\\'
      · rw [if_pos hc]
        by_cases hemp : (rest.takeWhile isAsciiLetter).isEmpty = true
        · rw [if_pos hemp]
          simp [List.filter_cons, ih]
        · rw [if_neg hemp]
          cases hmt : matchCmdTail (rest.dropWhile isAsciiLetter) with
          | some pr =>
            obtain ⟨tail, rest3⟩ := pr
            have hdec := matchCmdTail_eq _ _ _ hmt
            have hsplit := List.takeWhile_append_dropWhile isAsciiLetter rest
            have hrest : rest = rest.takeWhile isAsciiLetter ++ (tail ++ rest3) := by
              conv_rhs => rw [← hdec]
              rw [hsplit]
            conv_rhs => rw [hrest]
            simp [List.filter_append, filter_pstrip, ih, List.filter_cons, hc, keep_bs,
              keep_dollar]
          | none => simp [List.filter_cons, ih]
      · rw [if_neg hc]
        simp [List.filter_cons, ih]

/-!
## Emission lemmas
-/

theorem rejoinL_cons (s : Seg) (ss : List Seg) :
    rejoinL (s :: ss) = rejoinSeg s ++ rejoinL ss := rfl

theorem rejoinL_append (xs ys : List Seg) :
    rejoinL (xs ++ ys) = rejoinL xs ++ rejoinL ys := by
  induction xs with
  | nil => rfl
  | cons s ss ih => simp [rejoinL_cons, ih]

theorem goI_plain (parts : List (List Char)) :
    ∀ b (t : String), Seg.Plain t ∈ goI b parts → ¬(pstrip t.data = []) := by
  induction parts with
  | nil => intro b t h; cases b <;> simp [goI] at h
  | cons p ps ih =>
    intro b t h
    cases b with
    | false =>
      rw [show goI false (p :: ps)
          = (if pstrip p = [] then [] else [Seg.Plain (String.mk p)]) ++ goI true ps
          from rfl] at h
      rcases List.mem_append.mp h with h1 | h2
      · by_cases hp : pstrip p = []
        · rw [if_pos hp] at h1; cases h1
        · rw [if_neg hp] at h1
          have he := List.mem_singleton.mp h1
          injection he with ht
          subst ht
          exact hp
      · exact ih true t h2
    | true =>
      rw [show goI true (p :: ps) = Seg.MathInline (String.mk p) :: goI false ps from rfl] at h
      rcases List.mem_cons.mp h with h1 | h2
      · cases h1
      · exact ih false t h2

theorem goB_plain (parts : List (List Char)) :
    ∀ b (t : String), Seg.Plain t ∈ goB b parts → ¬(pstrip t.data = []) := by
  induction parts with
  | nil => intro b t h; cases b <;> simp [goB] at h
  | cons p ps ih =>
    intro b t h
    cases b with
    | false =>
      rw [show goB false (p :: ps) = goI false (scanInline p) ++ goB true ps from rfl] at h
      rcases List.mem_append.mp h with h1 | h2
      · exact goI_plain _ _ _ h1
      · exact ih true t h2
    | true =>
      rw [show goB true (p :: ps) = Seg.MathBlock (String.mk p) :: goB false ps from rfl] at h
      rcases List.mem_cons.mp h with h1 | h2
      · cases h1
      · exact ih false t h2

theorem rejoin_goI (parts : List (List Char)) :
    ∀ b, goodInline b parts = true → rejoinL (goI b parts) = glueI b parts := by
  induction parts with
  | nil => intro b _; cases b <;> rfl
  | cons p ps ih =>
    intro b hg
    cases b with
    | false =>
      have hga : (p.isEmpty || !(pstrip p).isEmpty) = true ∧ goodInline true ps = true := by
        simpa [goodInline, Bool.and_eq_true] using hg
      by_cases hp : pstrip p = []
      · have hpe : p = [] := by
          rcases Bool.or_eq_true_iff.mp hga.1 with h1 | h2
          · exact List.isEmpty_iff.mp h1
          · exact absurd hp (by simpa using h2)
        subst hpe
        simp [goI, glueI, show pstrip ([] : List Char) = [] from rfl, ih true hga.2]
      · simp [goI, glueI, hp, rejoinL_cons, rejoinSeg, ih true hga.2]
    | true =>
      have hgt : goodInline false ps = true := by simpa [goodInline] using hg
      simp [goI, glueI, rejoinL_cons, rejoinSeg, ih false hgt]

theorem rejoin_goB (parts : List (List Char)) :
    ∀ b, goodBlock b parts = true → rejoinL (goB b parts) = glueB b parts := by
  induction parts with
  | nil => intro b _; cases b <;> rfl
  | cons p ps ih =>
    intro b hg
    cases b with
    | false =>
      have h1 : goodInline false (scanInline p) = true ∧ goodBlock true ps = true := by
        simpa [goodBlock, Bool.and_eq_true] using hg
      rw [show goB false (p :: ps) = goI false (scanInline p) ++ goB true ps from rfl]
      rw [rejoinL_append, rejoin_goI _ _ h1.1, ih true h1.2]
      rw [show glueI false (scanInline p) = p from glueI_scanInlineF p.length none p]
      rfl
    | true =>
      have hgt : goodBlock false ps = true := by simpa [goodBlock] using hg
      simp [goB, glueB, rejoinL_cons, rejoinSeg, ih false hgt]

theorem filter_rejoin_goI (parts : List (List Char)) :
    ∀ b, (rejoinL (goI b parts)).filter keepCh = (glueI b parts).filter keepCh := by
  induction parts with
  | nil => intro b; cases b <;> rfl
  | cons p ps ih =>
    intro b
    cases b with
    | false =>
      by_cases hp : pstrip p = []
      · have hf : p.filter keepCh = [] := filter_keep_nil_of_ws p (pstrip_nil_all p hp)
        simp [goI, glueI, hp, List.filter_append, hf, ih true]
      · simp [goI, glueI, hp, List.filter_append, rejoinL_cons, rejoinSeg, ih true]
    | true =>
      simp [goI, glueI, rejoinL_cons, rejoinSeg, List.filter_append, List.filter_cons,
        keep_dollar, ih false]

theorem filter_rejoin_goB (parts : List (List Char)) :
    ∀ b, (rejoinL (goB b parts)).filter keepCh = (glueB b parts).filter keepCh := by
  induction parts with
  | nil => intro b; cases b <;> rfl
  | cons p ps ih =>
    intro b
    cases b with
    | false =>
      rw [show goB false (p :: ps) = goI false (scanInline p) ++ goB true ps from rfl]
      rw [show glueB false (p :: ps) = p ++ glueB true ps from rfl]
      rw [rejoinL_append, List.filter_append, List.filter_append]
      rw [filter_rejoin_goI, ih true]
      rw [show glueI false (scanInline p) = p from glueI_scanInlineF p.length none p]
    | true =>
      simp [goB, glueB, rejoinL_cons, rejoinSeg, List.filter_append, List.filter_cons,
        keep_dollar, ih false]

/-!
## Pass-through of step-3 math runs, and the step-3 joins
-/

theorem startsWithL_append (p l2 : List Char) : startsWithL p (p ++ l2) = true := by
  unfold startsWithL
  rw [List.take_left]
  simp

theorem endsWithL_append (p l1 : List Char) : endsWithL p (l1 ++ p) = true := by
  unfold endsWithL
  rw [show (l1 ++ p).length - p.length = l1.length from by simp [List.length_append],
    List.drop_left]
  simp

theorem passThru_block (inner : List Char) :
    passThru ('$' :: '$' :: inner ++ ['$', '$']) = true := by
  have hs : startsWithL dd ('$' :: '$' :: inner ++ ['$', '$']) = true := by
    rw [show '$' :: '$' :: inner ++ ['$', '$'] = dd ++ (inner ++ ['$', '$']) from by simp [dd]]
    exact startsWithL_append _ _
  have he : endsWithL dd ('$' :: '$' :: inner ++ ['$', '$']) = true := by
    rw [show '$' :: '$' :: inner ++ ['$', '$'] = ('$' :: '$' :: inner) ++ dd from by simp [dd]]
    exact endsWithL_append _ _
  simp only [List.cons_append] at hs he
  simp [passThru, hs, he]

theorem passThru_inline (run : List Char) :
    passThru ('$' :: run ++ ['$']) = true := by
  have hs : startsWithL sd ('$' :: run ++ ['$']) = true := by
    rw [show '$' :: run ++ ['$'] = sd ++ (run ++ ['$']) from by simp [sd]]
    exact startsWithL_append _ _
  have he : endsWithL sd ('$' :: run ++ ['$']) = true := by
    rw [show '$' :: run ++ ['$'] = ('$' :: run) ++ sd from by simp [sd]]
    exact endsWithL_append _ _
  simp only [List.cons_append] at hs he
  simp [passThru, hs, he]

theorem matchMath_passThru :
    ∀ l m r, matchMath l = some (m, r) → passThru m = true := by
  intro l m r h
  cases l with
  | nil => simp [matchMath] at h
  | cons c rest =>
    cases rest with
    | nil =>
      simp only [matchMath] at h
      by_cases hc : c = '$'
      · rw [if_pos hc] at h; cases h
      · rw [if_neg hc] at h; cases h
    | cons c2 rest2 =>
      simp only [matchMath] at h
      by_cases hc : c = '$'
      case neg => rw [if_neg hc] at h; cases h
      rw [if_pos hc] at h
      by_cases hc2 : c2 = '$'
      · rw [if_pos hc2] at h
        cases hsp : splitAtPair '$' '$' rest2 with
        | none => rw [hsp] at h; cases h
        | some pr =>
          obtain ⟨inner, r2⟩ := pr
          rw [hsp] at h
          simp only [Option.some.injEq, Prod.mk.injEq] at h
          obtain ⟨rfl, rfl⟩ := h
          exact passThru_block inner
      · rw [if_neg hc2] at h
        by_cases hcl : (headIsDollar ((c2 :: rest2).dropWhile runChar)
            && !((c2 :: rest2).takeWhile runChar).isEmpty) = true
        · rw [if_pos hcl] at h
          simp only [Option.some.injEq, Prod.mk.injEq] at h
          obtain ⟨rfl, rfl⟩ := h
          exact passThru_inline _
        · rw [if_neg hcl] at h; cases h

/-!
## The step-3 rejoin
-/

theorem map_id_of {α : Type} (g : α → α) :
    ∀ L : List α, (∀ p ∈ L, g p = p) → L.map g = L := by
  intro L
  induction L with
  | nil => intro _; rfl
  | cons p ps ih =>
    intro h
    simp only [List.map_cons, h p (List.mem_cons_self _ _),
      ih fun q hq => h q (List.mem_cons_of_mem _ hq)]

theorem map_eq_of {α β : Type} (g h2 : α → β) :
    ∀ L : List α, (∀ p ∈ L, g p = h2 p) → L.map g = L.map h2 := by
  intro L
  induction L with
  | nil => intro _; rfl
  | cons p ps ih =>
    intro h
    simp only [List.map_cons, h p (List.mem_cons_self _ _),
      ih fun q hq => h q (List.mem_cons_of_mem _ hq)]

theorem step3_id (l : List Char) (hbs : '\\' ∉ l) (hlb : '[' ∉ l) : step3 l = l := by
  unfold step3
  have hpieces : ∀ p ∈ scan3 l, (if passThru p then p else transform_outside_math p) = p := by
    intro p hp
    by_cases ht : passThru p = true
    · rw [if_pos ht]
    · rw [if_neg ht]
      have hsubp : ∀ c ∈ p, c ∈ l := by
        intro c hc
        have hm := mem_joinL hp hc
        rwa [show joinL (scan3 l) = l from joinL_scan3F l.length l] at hm
      unfold transform_outside_math subCmd subSquare
      rw [subSquareF_id _ _ fun h => hlb (hsubp _ h)]
      rw [subCmdF_id _ _ fun h => hbs (hsubp _ h)]
  rw [map_id_of _ _ hpieces]
  exact joinL_scan3F l.length l

theorem filter_step3 (l : List Char) : (step3 l).filter keepCh = l.filter keepCh := by
  unfold step3
  rw [filter_joinL, List.map_map]
  rw [map_eq_of _ (List.filter keepCh) _ (by
    intro p _
    simp only [Function.comp]
    by_cases ht : passThru p = true
    · rw [if_pos ht]
    · rw [if_neg ht]
      unfold transform_outside_math subCmd subSquare
      rw [filter_subCmdF, filter_subSquareF])]
  rw [← filter_joinL]
  rw [show joinL (scan3 l) = l from joinL_scan3F l.length l]

/-!
## Top-level renderer facts
-/

theorem render_plain_nonblank (s : List Char) (t : String)
    (h : Seg.Plain t ∈ render_markdown_with_latex s) : ¬(pstrip t.data = []) :=
  goB_plain _ _ _ h

theorem filter_render (s : List Char) :
    (rejoinL (render_markdown_with_latex s)).filter keepCh = s.filter keepCh := by
  unfold render_markdown_with_latex
  rw [filter_rejoin_goB]
  rw [show glueB false (scanBlock (step3 (sub2 (sub1 s)))) = step3 (sub2 (sub1 s)) from
    glueB_scanBlockF _ _]
  rw [filter_step3]
  unfold sub2 sub1
  rw [filter_subTexF _ _ _ (by decide) (by decide) (by decide)]
  rw [filter_subTexF _ _ _ (by decide) (by decide) (by decide)]

theorem render_roundtrip (s : List Char) (hbs : '\\' ∉ s) (hlb : '[' ∉ s)
    (hws : wellSplit s = true) : rejoinL (render_markdown_with_latex s) = s := by
  unfold render_markdown_with_latex
  rw [show sub1 s = s from subTexF_id _ _ _ _ _ hbs]
  rw [show sub2 s = s from subTexF_id _ _ _ _ _ hbs]
  rw [step3_id s hbs hlb]
  rw [rejoin_goB _ _ hws]
  exact glueB_scanBlockF _ _

/-!
## Fuel irrelevance and the behaviour of the TeX-delimiter substitutions
-/

theorem subTexF_fuel (oc cc : Char) (d : List Char) :
    ∀ f1 f2 l, l.length ≤ f1 → l.length ≤ f2 →
      subTexF oc cc d f1 l = subTexF oc cc d f2 l := by
  intro f1
  induction f1 with
  | zero =>
    intro f2 l h1 _
    have hl : l = [] := List.length_eq_zero.mp (Nat.le_zero.mp h1)
    subst hl
    cases f2 <;> rfl
  | succ f1 ih =>
    intro f2 l h1 h2
    cases l with
    | nil => cases f2 <;> rfl
    | cons c restl =>
      cases f2 with
      | zero => exact absurd h2 (by simp)
      | succ g =>
        cases restl with
        | nil => rw [subTexF_single, subTexF_single]
        | cons c2 rest2 =>
          rw [subTexF_cons2, subTexF_cons2]
          simp only [List.length_cons] at h1 h2
          by_cases hcc2 : c = '\\' ∧ c2 = oc
          · rw [if_pos hcc2, if_pos hcc2]
            cases hsp : splitAtPair '\\' cc rest2 with
            | some pr =>
              obtain ⟨inner, rest3⟩ := pr
              have hlen := congrArg List.length (splitAtPair_eq _ _ _ _ _ hsp)
              simp only [List.length_append, List.length_cons] at hlen
              show d ++ pstrip inner ++ d ++ subTexF oc cc d f1 rest3
                  = d ++ pstrip inner ++ d ++ subTexF oc cc d g rest3
              rw [ih g rest3 (by omega) (by omega)]
            | none =>
              show c :: subTexF oc cc d f1 (c2 :: rest2) = c :: subTexF oc cc d g (c2 :: rest2)
              rw [ih g (c2 :: rest2) (by simp; omega) (by simp; omega)]
          · rw [if_neg hcc2, if_neg hcc2]
            rw [ih g (c2 :: rest2) (by simp; omega) (by simp; omega)]

theorem subTexF_front (oc cc : Char) (d : List Char) :
    ∀ pre f g l, '\\' ∉ pre → (pre ++ l).length ≤ f → l.length ≤ g →
      subTexF oc cc d f (pre ++ l) = pre ++ subTexF oc cc d g l := by
  intro pre
  induction pre with
  | nil =>
    intro f g l _ h1 h2
    simp only [List.nil_append] at h1 ⊢
    exact subTexF_fuel _ _ _ _ _ _ h1 h2
  | cons p pre2 ih =>
    intro f g l hp h1 h2
    have hpne : ¬(p = '\\') := fun h => hp (h ▸ List.mem_cons_self _ _)
    cases f with
    | zero => exact absurd h1 (by simp)
    | succ f2 =>
      cases hrest : pre2 ++ l with
      | nil =>
        obtain ⟨hpre2, hl⟩ := List.append_eq_nil.mp hrest
        subst hpre2; subst hl
        simp only [List.cons_append, List.nil_append, hrest]
        rw [subTexF_single]
        cases g <;> rfl
      | cons q rest2 =>
        simp only [List.cons_append, hrest]
        rw [subTexF_cons2]
        rw [if_neg fun h => hpne h.1]
        rw [← hrest]
        rw [ih f2 g l (fun h => hp (List.mem_cons_of_mem _ h))
          (by simp only [List.cons_append, List.length_cons] at h1; omega) h2]

theorem splitAtPair_append (a b : Char) (hab : a ≠ b) :
    ∀ inner post, splitAtPair a b inner = none →
      splitAtPair a b (inner ++ a :: b :: post) = some (inner, post) := by
  intro inner
  induction inner with
  | nil =>
    intro post _
    simp only [List.nil_append]
    rw [splitAtPair_cons, if_pos ⟨rfl, rfl⟩]
  | cons x rest ih =>
    intro post hn
    cases rest with
    | nil =>
      simp only [List.cons_append, List.nil_append]
      rw [splitAtPair_cons]
      rw [if_neg fun h => hab h.2]
      rw [show splitAtPair a b (a :: b :: post) = some ([], post) from by
        rw [splitAtPair_cons, if_pos ⟨rfl, rfl⟩]]
    | cons y rest2 =>
      rw [splitAtPair_cons] at hn
      by_cases hxy : x = a ∧ y = b
      · rw [if_pos hxy] at hn; cases hn
      · rw [if_neg hxy] at hn
        have hrec : splitAtPair a b (y :: rest2) = none := by
          cases hsp : splitAtPair a b (y :: rest2) with
          | none => rfl
          | some pr => obtain ⟨p, r⟩ := pr; rw [hsp] at hn; cases hn
        have hih := ih post hrec
        simp only [List.cons_append] at hih ⊢
        rw [splitAtPair_cons, if_neg hxy, hih]

theorem subTexF_head (oc cc : Char) (d : List Char) (hab : ('\\' : Char) ≠ cc) :
    ∀ f g inner post, splitAtPair '\\' cc inner = none →
      ('\\' :: oc :: inner ++ '\\' :: cc :: post).length ≤ f → post.length ≤ g →
      subTexF oc cc d f ('\\' :: oc :: inner ++ '\\' :: cc :: post)
        = d ++ pstrip inner ++ d ++ subTexF oc cc d g post := by
  intro f g inner post hin h1 h2
  cases f with
  | zero => exact absurd h1 (by simp)
  | succ f2 =>
    have hshape : '\\' :: oc :: inner ++ '\\' :: cc :: post
        = '\\' :: oc :: (inner ++ '\\' :: cc :: post) := by simp
    rw [hshape, subTexF_cons2, if_pos ⟨rfl, rfl⟩, splitAtPair_append '\\' cc hab inner post hin]
    show d ++ pstrip inner ++ d ++ subTexF oc cc d f2 post
        = d ++ pstrip inner ++ d ++ subTexF oc cc d g post
    rw [subTexF_fuel oc cc d f2 g post
      (by simp only [hshape, List.length_cons, List.length_append] at h1; omega) h2]

theorem sub1_span (pre inner post : List Char) (hpre : '\\' ∉ pre)
    (hin : splitAtPair '\\' ']' inner = none) :
    sub1 (pre ++ '\\' :: '[' :: inner ++ '\\' :: ']' :: post)
      = pre ++ dd ++ pstrip inner ++ dd ++ sub1 post := by
  unfold sub1
  rw [List.append_assoc]
  rw [subTexF_front '[' ']' dd pre _ ('\\' :: '[' :: inner ++ '\\' :: ']' :: post).length _
    hpre (le_refl _) (le_refl _)]
  rw [subTexF_head '[' ']' dd (by decide) _ post.length inner post hin (le_refl _) (le_refl _)]
  simp [List.append_assoc]

theorem sub2_span (pre inner post : List Char) (hpre : '\\' ∉ pre)
    (hin : splitAtPair '\\' ')' inner = none) :
    sub2 (pre ++ '\\' :: '(' :: inner ++ '\\' :: ')' :: post)
      = pre ++ sd ++ pstrip inner ++ sd ++ sub2 post := by
  unfold sub2
  rw [List.append_assoc]
  rw [subTexF_front '(' ')' sd pre _ ('\\' :: '(' :: inner ++ '\\' :: ')' :: post).length _
    hpre (le_refl _) (le_refl _)]
  rw [subTexF_head '(' ')' sd (by decide) _ post.length inner post hin (le_refl _) (le_refl _)]
  simp [List.append_assoc]

/-!
## Whole-input span renderings

For rewrite-inert text (the characters that trigger some conversion being
absent) the renderer's behaviour on a whole plain run, a whole `$$...$$`
span and a whole `$...$` span can be computed in closed form.
-/

theorem scan3F_nil : ∀ f, scan3F f [] = [[]] := fun f => by cases f <;> rfl

theorem scanBlockF_nil : ∀ f, scanBlockF f [] = [[]] := fun f => by cases f <;> rfl

theorem scanInlineF_nil : ∀ f prev, scanInlineF f prev [] = [[]] := fun f prev => by
  cases f <;> rfl

theorem matchMath_none (c : Char) (rest : List Char) (hc : ¬(c = '$')) :
    matchMath (c :: rest) = none := by
  cases rest <;> simp [matchMath, hc]

theorem matchBlockAt_none (c : Char) (rest : List Char) (hc : ¬(c = '$')) :
    matchBlockAt (c :: rest) = none := by
  cases rest with
  | nil => simp [matchBlockAt]
  | cons c2 r2 =>
    simp only [matchBlockAt]
    rw [if_neg fun h : c = '$' ∧ c2 = '$' => hc h.1]

theorem matchInlineAt_none (prev : Option Char) (c : Char) (rest : List Char)
    (hc : ¬(c = '$')) : matchInlineAt prev (c :: rest) = none := by
  simp [matchInlineAt, hc]

theorem scan3F_inert : ∀ f l, '$' ∉ l → scan3F f l = [l] := by
  intro f
  induction f with
  | zero => intro l _; cases l <;> rfl
  | succ f ih =>
    intro l hl
    cases l with
    | nil => rfl
    | cons c rest =>
      rw [scan3F_cons, matchMath_none c rest fun h => hl (h ▸ List.mem_cons_self _ _)]
      rw [ih rest fun h => hl (List.mem_cons_of_mem _ h)]

theorem scanBlockF_inert : ∀ f l, '$' ∉ l → scanBlockF f l = [l] := by
  intro f
  induction f with
  | zero => intro l _; cases l <;> rfl
  | succ f ih =>
    intro l hl
    cases l with
    | nil => rfl
    | cons c rest =>
      rw [scanBlockF_cons, matchBlockAt_none c rest fun h => hl (h ▸ List.mem_cons_self _ _)]
      rw [ih rest fun h => hl (List.mem_cons_of_mem _ h)]

theorem scanInlineF_inert : ∀ f prev l, '$' ∉ l → scanInlineF f prev l = [l] := by
  intro f
  induction f with
  | zero => intro prev l _; cases l <;> rfl
  | succ f ih =>
    intro prev l hl
    cases l with
    | nil => rfl
    | cons c rest =>
      rw [scanInlineF_cons, matchInlineAt_none prev c rest fun h => hl (h ▸ List.mem_cons_self _ _)]
      rw [ih (some c) rest fun h => hl (List.mem_cons_of_mem _ h)]

theorem render_inert (s : List Char) (h1 : '$' ∉ s) (h2 : '\\' ∉ s) (h3 : '[' ∉ s)
    (h4 : ¬(pstrip s = [])) :
    render_markdown_with_latex s = [Seg.Plain (String.mk s)] := by
  unfold render_markdown_with_latex
  rw [show sub1 s = s from subTexF_id _ _ _ _ _ h2]
  rw [show sub2 s = s from subTexF_id _ _ _ _ _ h2]
  rw [step3_id s h2 h3]
  rw [show scanBlock s = [s] from scanBlockF_inert _ _ h1]
  rw [show goB false [s] = goI false (scanInline s) ++ goB true [] from rfl]
  rw [show scanInline s = [s] from scanInlineF_inert _ _ _ h1]
  simp [goI, goB, h4]

theorem splitAtPair_append_of_not_mem (a b : Char) :
    ∀ inner post, (∀ c ∈ inner, ¬(c = a)) →
      splitAtPair a b (inner ++ a :: b :: post) = some (inner, post) := by
  intro inner
  induction inner with
  | nil =>
    intro post _
    simp only [List.nil_append]
    rw [splitAtPair_cons, if_pos ⟨rfl, rfl⟩]
  | cons x rest ih =>
    intro post h
    have hx : ¬(x = a) := h x (List.mem_cons_self _ _)
    cases rest with
    | nil =>
      simp only [List.cons_append, List.nil_append]
      rw [splitAtPair_cons, if_neg fun hp => hx hp.1]
      rw [show splitAtPair a b (a :: b :: post) = some ([], post) from by
        rw [splitAtPair_cons, if_pos ⟨rfl, rfl⟩]]
    | cons y rest2 =>
      have hih := ih post fun c hc => h c (List.mem_cons_of_mem _ hc)
      simp only [List.cons_append] at hih ⊢
      rw [splitAtPair_cons, if_neg fun hp => hx hp.1, hih]

theorem render_block_span (s : List Char) (h1 : '$' ∉ s) (h2 : '\\' ∉ s) :
    render_markdown_with_latex ('$' :: '$' :: s ++ ['$', '$']) = [Seg.MathBlock (String.mk s)] := by
  have hnd : ∀ c ∈ s, ¬(c = '$') := fun c hc he => h1 (he ▸ hc)
  have hsp : splitAtPair '$' '$' (s ++ ['$', '$']) = some (s, []) :=
    splitAtPair_append_of_not_mem '$' '$' s [] hnd
  have hL : ('$' :: '$' :: s ++ ['$', '$']) = '$' :: '$' :: (s ++ ['$', '$']) := by simp
  have hno2 : '\\' ∉ ('$' :: '$' :: (s ++ ['$', '$'])) := by
    intro hmem
    simp only [List.mem_cons, List.mem_append, List.mem_singleton] at hmem
    rcases hmem with h | h | h | h
    · cases h
    · cases h
    · exact h2 h
    · rcases h with h | h | h
      · cases h
      · cases h
      · cases h
  have hm : matchMath ('$' :: '$' :: (s ++ ['$', '$']))
      = some ('$' :: '$' :: s ++ ['$', '$'], []) := by
    simp only [matchMath]
    rw [if_pos trivial, if_pos trivial, hsp]
  have hlen : ('$' :: '$' :: (s ++ ['$', '$'])).length = (s.length + 3) + 1 := by
    simp [List.length_append]
  have hscan3 : scan3 ('$' :: '$' :: (s ++ ['$', '$']))
      = [[], '$' :: '$' :: s ++ ['$', '$'], []] := by
    unfold scan3
    rw [hlen, scan3F_cons, hm]
    show [] :: ('$' :: '$' :: s ++ ['$', '$']) :: scan3F (s.length + 3) []
        = [[], '$' :: '$' :: s ++ ['$', '$'], []]
    rw [scan3F_nil]
  have htrn : transform_outside_math ([] : List Char) = [] := rfl
  have hstep3 : step3 ('$' :: '$' :: (s ++ ['$', '$'])) = '$' :: '$' :: (s ++ ['$', '$'])
      := by
    unfold step3
    rw [hscan3]
    simp only [List.map_cons, List.map_nil, htrn, ite_self]
    rw [if_pos (passThru_block s)]
    simp [joinL_cons, joinL_nil]
  have hmb : matchBlockAt ('$' :: '$' :: (s ++ ['$', '$'])) = some (s, []) := by
    simp only [matchBlockAt]
    rw [if_pos ⟨trivial, trivial⟩, hsp]
  have hblock : scanBlock ('$' :: '$' :: (s ++ ['$', '$'])) = [[], s, []] := by
    unfold scanBlock
    rw [hlen, scanBlockF_cons, hmb]
    show [] :: s :: scanBlockF (s.length + 3) [] = [[], s, []]
    rw [scanBlockF_nil]
  have hsi : scanInline ([] : List Char) = [[]] := rfl
  unfold render_markdown_with_latex
  rw [hL]
  rw [show sub1 ('$' :: '$' :: (s ++ ['$', '$'])) = '$' :: '$' :: (s ++ ['$', '$']) from
    subTexF_id _ _ _ _ _ hno2]
  rw [show sub2 ('$' :: '$' :: (s ++ ['$', '$'])) = '$' :: '$' :: (s ++ ['$', '$']) from
    subTexF_id _ _ _ _ _ hno2]
  rw [hstep3, hblock]
  simp [goB, goI, hsi, show pstrip ([] : List Char) = [] from rfl]

theorem dropWhile_all (p : Char → Bool) :
    ∀ s t : List Char, (∀ c ∈ s, p c = true) → (s ++ t).dropWhile p = t.dropWhile p := by
  intro s
  induction s with
  | nil => intro t _; rfl
  | cons c s2 ih =>
    intro t h
    simp only [List.cons_append, List.dropWhile_cons, h c (List.mem_cons_self _ _), if_true]
    exact ih t fun x hx => h x (List.mem_cons_of_mem _ hx)

theorem takeWhile_all (p : Char → Bool) :
    ∀ s t : List Char, (∀ c ∈ s, p c = true) → (s ++ t).takeWhile p = s ++ t.takeWhile p := by
  intro s
  induction s with
  | nil => intro t _; rfl
  | cons c s2 ih =>
    intro t h
    simp only [List.cons_append, List.takeWhile_cons, h c (List.mem_cons_self _ _), if_true]
    rw [ih t fun x hx => h x (List.mem_cons_of_mem _ hx)]

theorem findInlineClose_clean :
    ∀ s prev, (∀ c ∈ s, ¬(c = '\n') ∧ ¬(c = '$')) → ¬(prev = '$') →
      findInlineClose prev (s ++ ['$']) = some (s, []) := by
  intro s
  induction s with
  | nil =>
    intro prev _ hprev
    simp only [List.nil_append]
    rw [findInlineClose_cons]
    rw [if_neg (by simp)]
    rw [if_pos (by simp [headIsDollar, hprev])]
  | cons c0 s2 ih =>
    intro prev h hprev
    have hc0 := h c0 (List.mem_cons_self _ _)
    simp only [List.cons_append]
    rw [findInlineClose_cons]
    rw [if_neg (by simp [hc0.1])]
    rw [if_neg (by simp [hc0.2])]
    rw [ih c0 (fun c hc => h c (List.mem_cons_of_mem _ hc)) hc0.2]

theorem matchInlineAt_span (s : List Char) (hne : s ≠ [])
    (h : ∀ c ∈ s, ¬(c = '\n') ∧ ¬(c = '$')) :
    matchInlineAt none ('$' :: (s ++ ['$'])) = some (s, []) := by
  cases s with
  | nil => cases hne rfl
  | cons c0 s2 =>
    have hc0 := h c0 (List.mem_cons_self _ _)
    simp only [List.cons_append]
    simp only [matchInlineAt]
    rw [if_pos (by simp [headIsDollar, hc0.2])]
    rw [findInlineClose_cons]
    rw [if_neg (by simp [hc0.1])]
    rw [if_neg (by simp [hc0.2])]
    rw [findInlineClose_clean s2 c0 (fun c hc => h c (List.mem_cons_of_mem _ hc)) hc0.2]

theorem matchMath_inline_span (s : List Char) (hne : s ≠ [])
    (h : ∀ c ∈ s, ¬(c = '\n') ∧ ¬(c = '$')) :
    matchMath ('$' :: (s ++ ['$'])) = some ('$' :: s ++ ['$'], []) := by
  cases s with
  | nil => cases hne rfl
  | cons c0 s2 =>
    have hc0 := h c0 (List.mem_cons_self _ _)
    have hall : ∀ c ∈ c0 :: s2, runChar c = true := by
      intro c hc
      have hcc := h c hc
      simp [runChar, hcc.1, hcc.2]
    have hdw : (c0 :: (s2 ++ ['$'])).dropWhile runChar = ['$'] := by
      rw [show c0 :: (s2 ++ ['$']) = (c0 :: s2) ++ ['$'] from by simp]
      rw [dropWhile_all runChar (c0 :: s2) ['$'] hall]
      rfl
    have htw : (c0 :: (s2 ++ ['$'])).takeWhile runChar = c0 :: s2 := by
      rw [show c0 :: (s2 ++ ['$']) = (c0 :: s2) ++ ['$'] from by simp]
      rw [takeWhile_all runChar (c0 :: s2) ['$'] hall]
      rw [show List.takeWhile runChar ['$'] = [] from rfl]
      simp
    simp only [List.cons_append]
    simp only [matchMath]
    rw [if_pos trivial]
    rw [if_neg hc0.2]
    rw [hdw, htw]
    rw [if_pos (show (headIsDollar ['$'] && !(c0 :: s2).isEmpty) = true from rfl)]
    simp

theorem scanBlockF_tail_span :
    ∀ f s, (∀ c ∈ s, ¬(c = '$')) → scanBlockF f (s ++ ['$']) = [s ++ ['$']] := by
  intro f
  induction f with
  | zero => intro s _; cases s <;> rfl
  | succ f ih =>
    intro s h
    cases s with
    | nil =>
      simp only [List.nil_append]
      rw [scanBlockF_cons, show matchBlockAt ['$'] = none from rfl, scanBlockF_nil]
    | cons c0 s2 =>
      have hc0 := h c0 (List.mem_cons_self _ _)
      simp only [List.cons_append]
      rw [scanBlockF_cons, matchBlockAt_none c0 _ hc0]
      rw [ih s2 fun c hc => h c (List.mem_cons_of_mem _ hc)]

theorem scanBlockF_inline_span :
    ∀ f s, s ≠ [] → (∀ c ∈ s, ¬(c = '$')) →
      scanBlockF f ('$' :: (s ++ ['$'])) = ['$' :: (s ++ ['$'])] := by
  intro f
  induction f with
  | zero => intro s _ _; rfl
  | succ f _ =>
    intro s hne h
    cases s with
    | nil => cases hne rfl
    | cons c0 s2 =>
      have hc0 := h c0 (List.mem_cons_self _ _)
      have hmb : matchBlockAt ('$' :: c0 :: (s2 ++ ['$'])) = none := by
        simp only [matchBlockAt]
        rw [if_neg fun hp => hc0 hp.2]
      simp only [List.cons_append]
      rw [scanBlockF_cons, hmb]
      have htail := scanBlockF_tail_span f (c0 :: s2) h
      simp only [List.cons_append] at htail
      rw [htail]

theorem render_inline_span (s : List Char) (hne : s ≠ [])
    (h : ∀ c ∈ s, ¬(c = '\n') ∧ ¬(c = '$')) (h2 : '\\' ∉ s) :
    render_markdown_with_latex ('$' :: s ++ ['$']) = [Seg.MathInline (String.mk s)] := by
  have hnd : ∀ c ∈ s, ¬(c = '$') := fun c hc => (h c hc).2
  have hL : ('$' :: s ++ ['$']) = '$' :: (s ++ ['$']) := by simp
  have hno2 : '\\' ∉ '$' :: (s ++ ['$']) := by
    intro hmem
    rcases List.mem_cons.mp hmem with hx | hx
    · cases hx
    · rcases List.mem_append.mp hx with hy | hy
      · exact h2 hy
      · exact absurd (List.mem_singleton.mp hy) (by decide)
  have hm := matchMath_inline_span s hne h
  have hlen : ('$' :: (s ++ ['$'])).length = (s.length + 1) + 1 := by
    simp [List.length_append]
  have hscan3 : scan3 ('$' :: (s ++ ['$'])) = [[], '$' :: s ++ ['$'], []] := by
    unfold scan3
    rw [hlen, scan3F_cons, hm]
    show [] :: ('$' :: s ++ ['$']) :: scan3F (s.length + 1) [] = [[], '$' :: s ++ ['$'], []]
    rw [scan3F_nil]
  have htrn : transform_outside_math ([] : List Char) = [] := rfl
  have hstep3 : step3 ('$' :: (s ++ ['$'])) = '$' :: (s ++ ['$']) := by
    unfold step3
    rw [hscan3]
    simp only [List.map_cons, List.map_nil, htrn, ite_self]
    rw [if_pos (passThru_inline s)]
    simp [joinL_cons, joinL_nil]
  have hblock : scanBlock ('$' :: (s ++ ['$'])) = ['$' :: (s ++ ['$'])] :=
    scanBlockF_inline_span _ s hne hnd
  have hinline : scanInline ('$' :: (s ++ ['$'])) = [[], s, []] := by
    unfold scanInline
    rw [hlen, scanInlineF_cons, matchInlineAt_span s hne h]
    show [] :: s :: scanInlineF (s.length + 1) (some '$') [] = [[], s, []]
    rw [scanInlineF_nil]
  have hsi : scanInline ([] : List Char) = [[]] := rfl
  unfold render_markdown_with_latex
  rw [hL]
  rw [show sub1 ('$' :: (s ++ ['$'])) = '$' :: (s ++ ['$']) from
    subTexF_id _ _ _ _ _ hno2]
  rw [show sub2 ('$' :: (s ++ ['$'])) = '$' :: (s ++ ['$']) from
    subTexF_id _ _ _ _ _ hno2]
  rw [hstep3, hblock]
  rw [show goB false ['$' :: (s ++ ['$'])]
      = goI false (scanInline ('$' :: (s ++ ['$']))) ++ goB true [] from rfl]
  rw [hinline]
  simp [goB, goI, hsi, show pstrip ([] : List Char) = [] from rfl]

/-!
## The claims
-/

/-- C1: the renderer emits segments in left-to-right document order (the
order of the returned list); a `Plain` segment that is blank after
trimming is never emitted (for every input); rewrite-inert non-blank text
becomes one `Plain` segment; a well-formed `$$...$$` span becomes exactly
one `MathBlock` and a well-formed single-line `$...$` span exactly one
`MathInline`, each carrying the inner expression without the delimiters;
and in particular `render "The answer is $42$."` is
`[Plain "The answer is ", MathInline "42", Plain "."]`. -/
theorem claim_C1 :
    (∀ (s : String) (t : String),
        Seg.Plain t ∈ render s → ¬(pstrip t.data = [])) ∧
      (∀ s : List Char, '$' ∉ s → '\\' ∉ s → '[' ∉ s → ¬(pstrip s = []) →
        render_markdown_with_latex s = [Seg.Plain (String.mk s)]) ∧
      (∀ s : List Char, '$' ∉ s → '\\' ∉ s →
        render_markdown_with_latex ('$' :: '$' :: s ++ ['$', '$'])
          = [Seg.MathBlock (String.mk s)]) ∧
      (∀ s : List Char, s ≠ [] → (∀ c ∈ s, ¬(c = '\n') ∧ ¬(c = '$')) → '\\' ∉ s →
        render_markdown_with_latex ('$' :: s ++ ['$'])
          = [Seg.MathInline (String.mk s)]) ∧
      render "The answer is $42$." =
        [Seg.Plain "The answer is ", Seg.MathInline "42", Seg.Plain "."] := by
  refine ⟨?_, render_inert, render_block_span, render_inline_span, by decide⟩
  intro s t h
  exact render_plain_nonblank s.data t h

/-- Witness for C1: a concrete emitted `Plain` segment, shown non-blank by
the theorem. -/
theorem claim_C1_witness :
    Seg.Plain "x" ∈ render "x" ∧ ¬(pstrip ("x" : String).data = []) :=
  ⟨by decide, claim_C1.1 "x" "x" (by decide)⟩

/-- C2: rejoining the rendered segments (re-inserting the `$`/`$$` markers
around math expressions) reproduces, for every content string, exactly the
original sequence of visible non-delimiter characters: the characters that
are neither whitespace (only whitespace-only plain runs and surrounding
whitespace of converted spans are ever dropped) nor delimiter material
(`$ \ [ ] ( )`, the characters rewritten by delimiter normalisation). -/
theorem claim_C2 :
    ∀ s : String, (rejoinL (render s)).filter keepCh = s.data.filter keepCh := fun s =>
  filter_render s.data

/-- C3 as stated is false: on `[\alpha x, y]` step 4a produces the block
region `$$\alpha x, y$$`, and step 4b then rewrites its interior, giving
`$$$\alpha x$, y$$`. -/
theorem claim_C3_counterexample :
    subSquare ("[\\alpha x, y]".data) = ("$$\\alpha x, y$$").data ∧
      transform_outside_math ("[\\alpha x, y]".data) = ("$$$\\alpha x$, y$$").data ∧
      ¬ transform_outside_math ("[\\alpha x, y]".data) = ("$$\\alpha x, y$$").data := by
  refine ⟨by decide, by decide, by decide⟩

/-- C3 amended: the steps run in the spec's order and every math run
isolated by the step-3 split passes through step 4 unchanged; however the
step-4b bare-command wrapping may modify the interior of `$$...$$` regions
created by the step-4a bracket conversion, as on `[\alpha x, y]`. -/
theorem claim_C3_amended :
    (∀ l m r, matchMath l = some (m, r) →
        (if passThru m then m else transform_outside_math m) = m) ∧
      transform_outside_math ("[\\alpha x, y]".data) = ("$$$\\alpha x$, y$$").data := by
  constructor
  · intro l m r h
    rw [if_pos (matchMath_passThru l m r h)]
  · decide

/-- Witness for C3: the step-3 treatment of the concrete math run `$x$`. -/
theorem claim_C3_witness :
    (if passThru ("$x$".data) then "$x$".data
     else transform_outside_math ("$x$".data)) = "$x$".data :=
  claim_C3_amended.1 ("$x$".data) ("$x$".data) [] (by decide)

/-- C4 as stated is false: in `[a](b) [frac]` the first `]` is followed by
`(`, so the regex extends the span to the final `]`; the whole text
(including the Markdown link `[a](b)`, whose inner `a` contains no
vocabulary word) is converted into one block-math region. -/
theorem claim_C4_counterexample :
    render "[a](b) [frac]" = [Seg.MathBlock "a](b) [frac"] ∧
      ¬ rejoinS (render "[a](b) [frac]") = "[a](b) [frac]" := by
  refine ⟨by decide, by decide⟩

/-- C4 amended: a text without `[` is left unchanged by the bracket
conversion; an isolated bracket span is converted exactly when its inner
text contains a vocabulary fragment (`[frac{1}{2}]`, `[not math here]`),
and a lone Markdown link is not converted (`See [this link](http://x)`);
but matching is leftmost with lookahead backtracking, so a span whose
first `]` is followed by `(` extends to the next admissible `]` and can
absorb a link, as in `[a](b) [frac]`. -/
theorem claim_C4_amended :
    (∀ f l, '[' ∉ l → subSquareF f l = l) ∧
      render "[frac\x7b1\x7d\x7b2\x7d]" = [Seg.MathBlock "frac\x7b1\x7d\x7b2\x7d"] ∧
      render "[not math here]" = [Seg.Plain "[not math here]"] ∧
      render "See [this link](http://x)" = [Seg.Plain "See [this link](http://x)"] ∧
      render "[a](b) [frac]" = [Seg.MathBlock "a](b) [frac"] := by
  refine ⟨subSquareF_id, by decide, by decide, by decide, by decide⟩

/-- Witness for C4: the bracket conversion leaves a bracket-free text
unchanged at a concrete input. -/
theorem claim_C4_witness :
    subSquareF 3 ("abc".data) = "abc".data :=
  claim_C4_amended.1 3 ("abc".data) (by decide)

/-- C5: every `\[ ... \]` span (closed at the earliest `\]`, matching
across newlines, after any backslash-free prefix) is rewritten to
`$$ trimmed-inner $$`, every `\( ... \)` span to `$ trimmed-inner $`, and
in particular `render "\[x^2\]"` is `[MathBlock "x^2"]` and
`render "\(x^2\)"` is `[MathInline "x^2"]`. -/
theorem claim_C5 :
    (∀ pre inner post : List Char, '\\' ∉ pre → splitAtPair '\\' ']' inner = none →
        sub1 (pre ++ '\\' :: '[' :: inner ++ '\\' :: ']' :: post)
          = pre ++ dd ++ pstrip inner ++ dd ++ sub1 post) ∧
      (∀ pre inner post : List Char, '\\' ∉ pre → splitAtPair '\\' ')' inner = none →
        sub2 (pre ++ '\\' :: '(' :: inner ++ '\\' :: ')' :: post)
          = pre ++ sd ++ pstrip inner ++ sd ++ sub2 post) ∧
      render "\\[x^2\\]" = [Seg.MathBlock "x^2"] ∧
      render "\\(x^2\\)" = [Seg.MathInline "x^2"] := by
  refine ⟨sub1_span, sub2_span, by decide, by decide⟩

/-- Witness for C5: the block conversion at a concrete decomposed input. -/
theorem claim_C5_witness :
    sub1 ("a ".data ++ '\\' :: '[' :: " x ".data ++ '\\' :: ']' :: "b".data)
        = "a ".data ++ dd ++ pstrip (" x ".data) ++ dd ++ sub1 ("b".data) :=
  claim_C5.1 ("a ".data) (" x ".data) ("b".data) (by decide) (by decide)

/-- C6 as stated is false: `$a$ $b$` consists of two well-formed `$...$`
regions separated by plain text, but the separating space is a
whitespace-only plain piece, which the renderer drops, so rejoining yields
`$a$$b$`, not the original text. -/
theorem claim_C6_counterexample :
    rejoinS (render "$a$ $b$") = "$a$$b$" ∧
      ¬ rejoinS (render "$a$ $b$") = "$a$ $b$" := by
  refine ⟨by decide, by decide⟩

/-- C6 amended: for every text built only from well-formed `$...$` and
`$$...$$` regions and plain text that triggers no rewriting (no `\` and no
`[`), splitting and rejoining recovers the original text exactly, provided
no non-empty whitespace-only plain piece arises (such pieces are dropped);
`wellSplit` states that side condition on the renderer's own splits. -/
theorem claim_C6_amended :
    ∀ s : String, '\\' ∉ s.data → '[' ∉ s.data → wellSplit s.data = true →
      rejoinL (render s) = s.data := fun s h1 h2 h3 =>
  render_roundtrip s.data h1 h2 h3

/-- Witness for C6: a concrete round trip through the renderer. -/
theorem claim_C6_witness :
    rejoinL (render "x $a$ and $$b$$ y") = ("x $a$ and $$b$$ y").data :=
  claim_C6_amended "x $a$ and $$b$$ y" (by decide) (by decide) (by decide)

/-- C7: for every submission, the displayed user message and the user
message appended to history both carry exactly the raw prompt, whatever
search returned and whether or not search is enabled; only
`messagesForApi` can carry the augmented content. -/
theorem claim_C7 :
    ∀ (prompt : String) (searchEnabled : Bool) (searchSources : List SearchResult)
      (prior : List ChatMessage) (stream : StreamOutcome),
      (chatTurn prompt searchEnabled searchSources prior stream).displayedUser = prompt ∧
      (chatTurn prompt searchEnabled searchSources prior stream).userMessage
        = { role := "user", content := prompt, sources := [] } ∧
      (chatTurn prompt searchEnabled searchSources prior stream).newMessages
        = (prior ++ [(chatTurn prompt searchEnabled searchSources prior stream).userMessage])
            ++ [(chatTurn prompt searchEnabled searchSources prior stream).assistantMessage] :=
  fun _ _ _ _ _ => ⟨rfl, rfl, rfl⟩

/-- C8: a non-200 search status or a search exception yields an empty
result list, and with an empty source list the outbound user content is
exactly the raw prompt, with no appended search-context block. -/
theorem claim_C8 :
    ∀ (key : Option String) (status : Nat) (results : List RawResult) (msg : String)
      (prompt : String) (searchEnabled : Bool) (prior : List ChatMessage)
      (stream : StreamOutcome),
      status ≠ 200 →
      perform_search key (SearchOutcome.resp status results) = [] ∧
      perform_search key (SearchOutcome.exn msg) = [] ∧
      (chatTurn prompt searchEnabled [] prior stream).apiUserContent = prompt ∧
      (chatTurn prompt searchEnabled [] prior stream).messagesForApi
        = (prior.map fun m => (m.role, m.content)) ++ [("user", prompt)] := by
  intro key status results msg prompt se prior stream hstatus
  refine ⟨?_, ?_, ?_, ?_⟩
  · cases key with
    | none => rfl
    | some k =>
      by_cases hk : k = ""
      · simp [perform_search, hk]
      · simp [perform_search, hk, hstatus]
  · cases key with
    | none => rfl
    | some k => by_cases hk : k = "" <;> simp [perform_search, hk]
  · simp [chatTurn]
  · simp [chatTurn]

/-- Witness for C8: a concrete failed search and the resulting outbound
payload. -/
theorem claim_C8_witness :
    perform_search (some "k") (SearchOutcome.resp 500 []) = [] ∧
    perform_search (some "k") (SearchOutcome.exn "boom") = [] ∧
    (chatTurn "hi" true [] [] (StreamOutcome.ok [])).apiUserContent = "hi" ∧
    (chatTurn "hi" true [] [] (StreamOutcome.ok [])).messagesForApi = [("user", "hi")] := by
  have h := claim_C8 (some "k") 500 [] "boom" "hi" true [] (StreamOutcome.ok []) (by decide)
  exact ⟨h.1, h.2.1, h.2.2.1, by rw [h.2.2.2]; rfl⟩

/-- C9: an exception during the streaming call is converted to the error
text `❌ Error: ...`, which is what is displayed for the assistant and
what is appended to history as the assistant message's content, so the
turn still completes. -/
theorem claim_C9 :
    ∀ (prompt : String) (searchEnabled : Bool) (searchSources : List SearchResult)
      (prior : List ChatMessage) (msg : String),
      (chatTurn prompt searchEnabled searchSources prior
          (StreamOutcome.err msg)).displayedAssistant = "❌ Error: " ++ msg ∧
      (chatTurn prompt searchEnabled searchSources prior
          (StreamOutcome.err msg)).assistantMessage.content = "❌ Error: " ++ msg ∧
      (chatTurn prompt searchEnabled searchSources prior
          (StreamOutcome.err msg)).newMessages
        = (prior ++ [(chatTurn prompt searchEnabled searchSources prior
              (StreamOutcome.err msg)).userMessage])
            ++ [(chatTurn prompt searchEnabled searchSources prior
              (StreamOutcome.err msg)).assistantMessage] :=
  fun _ _ _ _ _ => ⟨rfl, rfl, rfl⟩

/-- C10: expressions taken from pre-existing `$...$`/`$$...$$` delimiters
are emitted exactly as written, interior whitespace included, while the
`\[...\]`/`\(...\)` conversions strip surrounding whitespace. -/
theorem claim_C10 :
    render "$$ x $$" = [Seg.MathBlock " x "] ∧
    render "$ x $" = [Seg.MathInline " x "] ∧
    render "\\[ x \\]" = [Seg.MathBlock "x"] ∧
    render "\\( x \\)" = [Seg.MathInline "x"] := by
  refine ⟨by decide, by decide, by decide, by decide⟩
